import Mathlib

/-!
Formal model of the post-processing core of the GDScript formatter
(`src/formatter.rs` of the GDScript-formatter repository).

Texts are modelled as lists of characters indexed by byte offset, exactly as
the Rust code indexes `content.as_bytes()`.  The external collaborators
(tree-sitter parsing and queries, the Topiary pretty-printer, the regex
engine's match discovery) are not part of this repository's source, so their
*outputs* enter the model as parameters (lists of matches, a string-node
predicate on byte offsets, node start bytes, an arbitrary text-to-text
formatting function), while every transformation `formatter.rs` performs on
those inputs is embedded directly from the source.
-/

namespace GDScriptFormatter

/-- Source text under transformation, indexed by byte position as in the Rust
code (`self.content`). -/
abbrev Text := List Char

/-- Mirror of `tree_sitter::Point`: a row/column cursor. -/
structure Point where
  row : Nat
  column : Nat
deriving DecidableEq, Repr

/-- Embedding of `calculate_end_position` (formatter.rs, lines 709-719):
walks `slice` advancing a running cursor; a newline byte increments the row
and resets the column to 0, any other byte increments the column. -/
def calculate_end_position (start : Point) (slice : Text) : Point :=
  slice.foldl (fun p b => if b = '\n' then ⟨p.row + 1, 0⟩ else ⟨p.row, p.column + 1⟩) start

/-- The slice `content[i..j]` of Rust, as a list operation. -/
def extract (c : Text) (i j : Nat) : Text :=
  (c.drop i).take (j - i)

/-- One non-overlapping regex match on the current buffer, with the
replacement text the `Replacer` produced for it (`rep.replace_append`):
`start`/`stop` are `m.start()`/`m.end()` of formatter.rs line 278-279. -/
structure RMatch where
  start : Nat
  stop : Nat
  rep : Text
deriving DecidableEq, Repr

/-- Mirror of `tree_sitter::InputEdit` as filled in at formatter.rs,
lines 303-310. -/
structure InputEdit where
  start_byte : Nat
  old_end_byte : Nat
  new_end_byte : Nat
  start_position : Point
  old_end_position : Point
  new_end_position : Point
deriving DecidableEq, Repr

/-- The match loop of `Formatter::regex_replace_all_outside_strings`
(formatter.rs, lines 276-313).  State threaded exactly as in the source:
`last` is `last_match`, `acc` is `new`, `pos` is `start_position`, `edits`
is the collected edit list.  `inStr` abstracts the external tree lookup
`descendant_for_byte_range(start, start).kind() == "string"`. -/
def engineGo (content : Text) (inStr : Nat → Bool) :
    List RMatch → Nat → Text → Point → List InputEdit → Text × List InputEdit
  | [], last, acc, _, edits => (acc ++ content.drop last, edits)
  | m :: rest, last, acc, pos, edits =>
    if inStr m.start then
      engineGo content inStr rest last acc pos edits
    else
      let slice := extract content last m.start
      let startPosition := calculate_end_position pos slice
      let oldEndPosition := calculate_end_position startPosition (extract content m.start m.stop)
      let newEndPosition := calculate_end_position startPosition m.rep
      let edit : InputEdit :=
        ⟨m.start, m.stop, m.start + m.rep.length, startPosition, oldEndPosition, newEndPosition⟩
      engineGo content inStr rest m.stop (acc ++ slice ++ m.rep) oldEndPosition (edits ++ [edit])

/-- Embedding of `Formatter::regex_replace_all_outside_strings`
(formatter.rs, lines 263-322), restricted to its effect on the buffer and the
collected `InputEdit`s (the final incremental reparse is an external call and
is modelled separately in the pipeline-state section).  The zero-match early
return of lines 264-267 is the `isEmpty` branch. -/
def regex_replace_all_outside_strings (content : Text) (ms : List RMatch) (inStr : Nat → Bool) :
    Text × List InputEdit :=
  if ms.isEmpty then (content, [])
  else engineGo content inStr ms 0 [] ⟨0, 0⟩ []

/-- Specification-side rebuild of the buffer, following §4.2 step 3 of the
spec word for word: concatenate the unmodified prefix since the last match,
the replacement, repeated per match, plus the unmodified tail. -/
def buildReplacedFrom (content : Text) : Nat → List RMatch → Text
  | last, [] => content.drop last
  | last, m :: rest => extract content last m.start ++ m.rep ++ buildReplacedFrom content m.stop rest

/-- Specification-side replacement of every match of `ms`, per §4.2 step 3. -/
def buildReplaced (content : Text) (ms : List RMatch) : Text :=
  buildReplacedFrom content 0 ms

theorem engineGo_content (content : Text) (inStr : Nat → Bool) :
    ∀ (ms : List RMatch) (last : Nat) (acc : Text) (pos : Point) (edits : List InputEdit),
      (engineGo content inStr ms last acc pos edits).1 =
        acc ++ buildReplacedFrom content last (ms.filter fun m => !inStr m.start) := by
  intro ms
  induction ms with
  | nil => intro last acc pos edits; simp [engineGo, buildReplacedFrom]
  | cons m rest ih =>
    intro last acc pos edits
    by_cases h : inStr m.start
    · simp [engineGo, h, List.filter_cons, ih]
    · simp [engineGo, h, List.filter_cons, ih, buildReplacedFrom, List.append_assoc]

/-- C5: every match whose start byte falls inside a `string` node is skipped —
its bytes are carried over unchanged, because the output equals the
spec-side rebuild (§4.2 step 3) applied to precisely the matches that do
*not* start inside a string node, and the rebuild copies the original buffer
verbatim between the surviving matches — and every surviving match is
replaced by its replacement text. -/
theorem regex_replace_skips_matches_in_strings
    (content : Text) (ms : List RMatch) (inStr : Nat → Bool) :
    (regex_replace_all_outside_strings content ms inStr).1 =
      buildReplaced content (ms.filter fun m => !inStr m.start) := by
  unfold regex_replace_all_outside_strings buildReplaced
  by_cases h : ms.isEmpty
  · cases ms with
    | nil => simp [buildReplacedFrom]
    | cons m rest => simp at h
  · simp only [h, if_false, Bool.false_eq_true, engineGo_content, List.nil_append]

theorem calculate_end_position_append (p : Point) (a b : Text) :
    calculate_end_position p (a ++ b) =
      calculate_end_position (calculate_end_position p a) b :=
  List.foldl_append _ _ _ _

theorem take_append_extract (c : Text) {i j : Nat} (h : i ≤ j) :
    c.take i ++ extract c i j = c.take j := by
  rw [extract]
  conv_rhs => rw [show j = i + (j - i) by omega]
  rw [List.take_add]

/-- Chain of in-order, non-overlapping matches starting at or after `last`,
as the regex crate returns them (`captures_iter`). -/
def sortedFrom : Nat → List RMatch → Bool
  | _, [] => true
  | last, m :: rest =>
    decide (last ≤ m.start) && decide (m.start ≤ m.stop) && sortedFrom m.stop rest

theorem sortedFrom_le {a b : Nat} {ms : List RMatch} (h : sortedFrom b ms = true)
    (hab : a ≤ b) : sortedFrom a ms = true := by
  cases ms with
  | nil => rfl
  | cons m rest =>
    simp only [sortedFrom, Bool.and_eq_true, decide_eq_true_eq] at h ⊢
    exact ⟨⟨by omega, h.1.2⟩, h.2⟩

theorem engineGo_edits (content : Text) (inStr : Nat → Bool) :
    ∀ (ms : List RMatch) (last : Nat) (acc : Text) (pos : Point) (edits : List InputEdit),
      sortedFrom last ms = true →
      pos = calculate_end_position ⟨0, 0⟩ (content.take last) →
      (∀ e ∈ edits,
        e.start_position = calculate_end_position ⟨0, 0⟩ (content.take e.start_byte) ∧
        e.old_end_position = calculate_end_position ⟨0, 0⟩ (content.take e.old_end_byte)) →
      ∀ e ∈ (engineGo content inStr ms last acc pos edits).2,
        e.start_position = calculate_end_position ⟨0, 0⟩ (content.take e.start_byte) ∧
        e.old_end_position = calculate_end_position ⟨0, 0⟩ (content.take e.old_end_byte) := by
  intro ms
  induction ms with
  | nil => intro last acc pos edits _ _ hP; simpa [engineGo] using hP
  | cons m rest ih =>
    intro last acc pos edits hs hpos hP
    simp only [sortedFrom, Bool.and_eq_true, decide_eq_true_eq] at hs
    obtain ⟨⟨h1, h2⟩, h3⟩ := hs
    by_cases h : inStr m.start
    · simp only [engineGo, h, if_true]
      exact ih last acc pos edits (sortedFrom_le h3 (by omega)) hpos hP
    · simp only [engineGo, h, if_false, Bool.false_eq_true]
      have hstart :
          calculate_end_position pos (extract content last m.start) =
            calculate_end_position ⟨0, 0⟩ (content.take m.start) := by
        rw [hpos, ← calculate_end_position_append, take_append_extract content h1]
      have hold :
          calculate_end_position (calculate_end_position pos (extract content last m.start))
              (extract content m.start m.stop) =
            calculate_end_position ⟨0, 0⟩ (content.take m.stop) := by
        rw [hstart, ← calculate_end_position_append, take_append_extract content h2]
      refine ih m.stop _ _ _ h3 hold ?_
      intro e he
      rcases List.mem_append.mp he with he | he
      · exact hP e he
      · rcases List.mem_singleton.mp he with rfl
        exact ⟨hstart, hold⟩

/-- C8: the position deltas of the `TextEdit`s are computed against the
original, unedited buffer: a newline advances the row and resets the column,
any other byte advances the column, and for every edit the engine records,
its start and old-end positions equal the cursor run over the corresponding
prefix of the *original* content (not of the partially rewritten buffer). -/
theorem edit_positions_follow_original_text
    (content : Text) (ms : List RMatch) (inStr : Nat → Bool)
    (h : sortedFrom 0 ms = true) :
    (∀ (p : Point) (b : Char),
      calculate_end_position p [b] =
        if b = '\n' then ⟨p.row + 1, 0⟩ else ⟨p.row, p.column + 1⟩) ∧
    (∀ e ∈ (regex_replace_all_outside_strings content ms inStr).2,
      e.start_position = calculate_end_position ⟨0, 0⟩ (content.take e.start_byte) ∧
      e.old_end_position = calculate_end_position ⟨0, 0⟩ (content.take e.old_end_byte)) := by
  constructor
  · intro p b; rfl
  · intro e he
    unfold regex_replace_all_outside_strings at he
    by_cases hms : ms.isEmpty
    · simp [hms] at he
    · simp only [hms, if_false, Bool.false_eq_true] at he
      exact engineGo_edits content inStr ms 0 [] ⟨0, 0⟩ [] h (by simp [calculate_end_position])
        (by simp) e he

/-- Witness for C8 at a concrete buffer with one skipped and one applied
match. -/
theorem edit_positions_follow_original_text_witness :
    sortedFrom 0 [⟨1, 2, ['X']⟩, ⟨4, 5, ['Y', 'Z']⟩] = true ∧
    ((∀ (p : Point) (b : Char),
      calculate_end_position p [b] =
        if b = '\n' then ⟨p.row + 1, 0⟩ else ⟨p.row, p.column + 1⟩) ∧
    (∀ e ∈ (regex_replace_all_outside_strings ['a', 'b', '\n', 'c', 'd', 'e']
        [⟨1, 2, ['X']⟩, ⟨4, 5, ['Y', 'Z']⟩] (fun n => decide (n = 1))).2,
      e.start_position = calculate_end_position ⟨0, 0⟩
        (List.take e.start_byte ['a', 'b', '\n', 'c', 'd', 'e']) ∧
      e.old_end_position = calculate_end_position ⟨0, 0⟩
        (List.take e.old_end_byte ['a', 'b', '\n', 'c', 'd', 'e']))) :=
  ⟨by decide,
    edit_positions_follow_original_text ['a', 'b', '\n', 'c', 'd', 'e']
      [⟨1, 2, ['X']⟩, ⟨4, 5, ['Y', 'Z']⟩] (fun n => decide (n = 1)) (by decide)⟩

/-- Reduced fingerprint of the syntax tree (`GdTree` and `GdTreeNode`,
formatter.rs lines 459-523 and 700-706): grammar id, optional leaf text, and
the ordered children.  The Rust code stores the nodes in a flat `Vec` with
parent/child indices; `from_ts_tree` builds a proper tree in that vector,
which this inductive type represents directly.  `grammar_name` is used only
by the normalization passes, never by equality, and `parent_id` is the
inverse of `children`; both are omitted. -/
inductive GdTree where
  | node : Nat → Option Text → List GdTree → GdTree

def GdTree.grammar_id : GdTree → Nat
  | .node g _ _ => g

def GdTree.text : GdTree → Option Text
  | .node _ t _ => t

def GdTree.children : GdTree → List GdTree
  | .node _ _ c => c

mutual

def gdSize : GdTree → Nat
  | .node _ _ cs => 1 + gdSizeList cs

def gdSizeList : List GdTree → Nat
  | [] => 0
  | t :: r => gdSize t + gdSizeList r

end

def pairsMeasure : List (GdTree × GdTree) → Nat
  | [] => 0
  | (a, b) :: r => gdSize a + gdSize b + pairsMeasure r

theorem gdSize_pos (t : GdTree) : 1 ≤ gdSize t := by
  cases t; simp [gdSize]

theorem gdSizeList_children_lt (t : GdTree) : gdSizeList t.children < gdSize t := by
  cases t; simp [gdSize, GdTree.children]

theorem pairsMeasure_append (l1 l2 : List (GdTree × GdTree)) :
    pairsMeasure (l1 ++ l2) = pairsMeasure l1 + pairsMeasure l2 := by
  induction l1 with
  | nil => simp [pairsMeasure]
  | cons p r ih => cases p; simp [pairsMeasure, ih]; omega

theorem pairsMeasure_zip_le (cs1 cs2 : List GdTree) :
    pairsMeasure (cs1.zip cs2) ≤ gdSizeList cs1 + gdSizeList cs2 := by
  induction cs1 generalizing cs2 with
  | nil => simp [pairsMeasure]
  | cons t1 r1 ih =>
    cases cs2 with
    | nil => simp [pairsMeasure, List.zip_nil_right]
    | cons t2 r2 =>
      have h4 : pairsMeasure (List.zipWith Prod.mk r1 r2) ≤ gdSizeList r1 + gdSizeList r2 :=
        ih r2
      simp only [List.zip_cons_cons, pairsMeasure, gdSizeList]
      omega

/-- The worklist loop of `impl PartialEq for GdTree` (formatter.rs lines
658-698).  The Rust code keeps two parallel stacks of node ids popped in
lockstep; since both stacks always have equal length, they are modelled as
one stack of pairs.  Each iteration compares the child counts of the popped
pair, then the grammar ids of corresponding children, failing immediately on
a mismatch, and pushes the child pairs. -/
def gdEqLoop : List (GdTree × GdTree) → Bool
  | [] => true
  | p :: rest =>
    if p.1.children.length ≠ p.2.children.length then false
    else if (p.1.children.zip p.2.children).any (fun q => q.1.grammar_id != q.2.grammar_id) then
      false
    else gdEqLoop (p.1.children.zip p.2.children ++ rest)
termination_by st => pairsMeasure st
decreasing_by
  have h1 := pairsMeasure_zip_le p.1.children p.2.children
  have h2 := gdSizeList_children_lt p.1
  have h3 := gdSizeList_children_lt p.2
  have hp : pairsMeasure (p :: rest) = gdSize p.1 + gdSize p.2 + pairsMeasure rest := by
    obtain ⟨a, b⟩ := p
    rfl
  rw [pairsMeasure_append, hp]
  omega

/-- Embedding of `impl PartialEq for GdTree` (formatter.rs lines 658-698):
the paired walk starting from both roots. -/
def GdTree.eq (t1 t2 : GdTree) : Bool :=
  gdEqLoop [(t1, t2)]

mutual

/-- Equivalence at every position below the root pair: child counts agree at
every corresponding node, and grammar ids agree at every corresponding child,
recursively.  The trees' own (root) grammar ids and all recorded text are not
compared. -/
def nonRootEquiv : GdTree → GdTree → Bool
  | .node _ _ cs1, .node _ _ cs2 => nonRootEquivList cs1 cs2

def nonRootEquivList : List GdTree → List GdTree → Bool
  | [], [] => true
  | t1 :: r1, t2 :: r2 =>
    (t1.grammar_id == t2.grammar_id) && nonRootEquiv t1 t2 && nonRootEquivList r1 r2
  | _, _ => false

end

/-- The equivalence worded by the spec: identical shape (same child count at
every corresponding node) and identical grammar ids at every position,
recursively — the root position included. -/
def specEquiv (t1 t2 : GdTree) : Bool :=
  (t1.grammar_id == t2.grammar_id) && nonRootEquiv t1 t2

theorem nonRootEquiv_iff (t1 t2 : GdTree) :
    nonRootEquiv t1 t2 = true ↔
      (t1.children.length = t2.children.length ∧
       ∀ p ∈ t1.children.zip t2.children,
         p.1.grammar_id = p.2.grammar_id ∧ nonRootEquiv p.1 p.2 = true) := by
  cases t1 with
  | node g1 x1 cs1 =>
    cases t2 with
    | node g2 x2 cs2 =>
      show nonRootEquivList cs1 cs2 = true ↔ _
      simp only [GdTree.children]
      induction cs1 generalizing cs2 with
      | nil =>
        cases cs2 with
        | nil => simp [nonRootEquivList]
        | cons t2 r2 => simp [nonRootEquivList]
      | cons c1 r1 ih =>
        cases cs2 with
        | nil => simp [nonRootEquivList]
        | cons c2 r2 =>
          simp only [nonRootEquivList, Bool.and_eq_true, beq_iff_eq, ih r2,
            List.zip_cons_cons, List.mem_cons, List.length_cons]
          constructor
          · rintro ⟨⟨hg, hn⟩, hlen, hall⟩
            refine ⟨by omega, ?_⟩
            rintro p (rfl | hp)
            · exact ⟨hg, hn⟩
            · exact hall p hp
          · rintro ⟨hlen, hall⟩
            obtain ⟨hg, hn⟩ := hall (c1, c2) (Or.inl rfl)
            exact ⟨⟨hg, hn⟩, by omega, fun p hp => hall p (Or.inr hp)⟩

theorem gdEqLoop_iff_all :
    ∀ (n : Nat) (st : List (GdTree × GdTree)), pairsMeasure st ≤ n →
      (gdEqLoop st = true ↔ ∀ p ∈ st, nonRootEquiv p.1 p.2 = true) := by
  intro n
  induction n with
  | zero =>
    intro st h
    cases st with
    | nil => simp [gdEqLoop]
    | cons p rest =>
      exfalso
      obtain ⟨a, b⟩ := p
      have ha := gdSize_pos a
      have hb := gdSize_pos b
      simp only [pairsMeasure] at h
      omega
  | succ n ih =>
    intro st h
    cases st with
    | nil => simp [gdEqLoop]
    | cons p rest =>
      obtain ⟨t1, t2⟩ := p
      by_cases hlen : t1.children.length = t2.children.length
      · cases hany : (t1.children.zip t2.children).any fun q => q.1.grammar_id != q.2.grammar_id with
        | false =>
          have hmeas : pairsMeasure (t1.children.zip t2.children ++ rest) ≤ n := by
            have h1 := pairsMeasure_zip_le t1.children t2.children
            have h2 := gdSizeList_children_lt t1
            have h3 := gdSizeList_children_lt t2
            rw [pairsMeasure_append]
            simp only [pairsMeasure] at h
            omega
          have hstep : gdEqLoop ((t1, t2) :: rest) =
              gdEqLoop (t1.children.zip t2.children ++ rest) := by
            simp only [gdEqLoop]
            simp [hlen, hany]
          rw [hstep, ih _ hmeas]
          constructor
          · intro hall
            intro p hp
            rcases List.mem_cons.mp hp with rfl | hp
            · rw [nonRootEquiv_iff]
              refine ⟨hlen, fun q hq => ⟨?_, hall q (List.mem_append_left _ hq)⟩⟩
              by_contra hne
              have hx : ((t1.children.zip t2.children).any
                  fun q => q.1.grammar_id != q.2.grammar_id) = true :=
                List.any_eq_true.mpr ⟨q, hq, bne_iff_ne.mpr hne⟩
              rw [hany] at hx
              exact Bool.false_ne_true hx
            · exact hall p (List.mem_append_right _ hp)
          · intro hall p hp
            rcases List.mem_append.mp hp with hp | hp
            · exact (((nonRootEquiv_iff t1 t2).mp
                (hall (t1, t2) (List.mem_cons_self _ _))).2 p hp).2
            · exact hall p (List.mem_cons_of_mem _ hp)
        | true =>
          obtain ⟨q, hq, hne⟩ := List.any_eq_true.mp hany
          rw [bne_iff_ne] at hne
          have hLHS : gdEqLoop ((t1, t2) :: rest) = false := by
            simp only [gdEqLoop]
            simp [hlen, hany]
          rw [hLHS]
          simp only [Bool.false_eq_true, false_iff]
          intro hall
          have hroot := (nonRootEquiv_iff t1 t2).mp (hall (t1, t2) (List.mem_cons_self _ _))
          exact hne (hroot.2 q hq).1
      · have hLHS : gdEqLoop ((t1, t2) :: rest) = false := by
          simp only [gdEqLoop]
          simp [hlen]
        rw [hLHS]
        simp only [Bool.false_eq_true, false_iff]
        intro hall
        exact hlen ((nonRootEquiv_iff t1 t2).mp (hall (t1, t2) (List.mem_cons_self _ _))).1

theorem gdtree_eq_eq_nonRootEquiv (t1 t2 : GdTree) :
    GdTree.eq t1 t2 = true ↔ nonRootEquiv t1 t2 = true := by
  rw [GdTree.eq, gdEqLoop_iff_all (pairsMeasure [(t1, t2)]) _ le_rfl]
  simp

/-- C4 counterexample: two single-node trees that differ in their root
grammar id are judged equal by the `PartialEq` walk (the roots' own grammar
ids are never compared — only children's are), while under the claimed
equivalence (identical grammar ids at every position, recursively) they are
not equivalent. -/
theorem gdtree_eq_ignores_root_grammar_id :
    GdTree.eq (.node 1 none []) (.node 2 none []) = true ∧
    specEquiv (.node 1 none []) (.node 2 none []) = false := by
  constructor
  · simp [GdTree.eq, gdEqLoop, GdTree.children]
  · simp [specEquiv, GdTree.grammar_id]

/-- C4 (amended): GdTree equality returns true if and only if the two trees
have identical shape (the same child count at every corresponding node) and
identical grammar ids at every position *other than the root pair*,
recursively — the roots' own grammar ids are never compared; the paired walk
reports failure on a child-count or grammar-id mismatch rather than
attempting partial matching. -/
theorem gdtree_eq_iff_shape_and_child_grammar_ids (t1 t2 : GdTree) :
    GdTree.eq t1 t2 = true ↔ nonRootEquiv t1 t2 = true :=
  gdtree_eq_eq_nonRootEquiv t1 t2

/-- Embedding of `Formatter::finish` (formatter.rs lines 145-158): in safe
mode the final content is reparsed and the (normalized) input fingerprint is
compared with the output fingerprint; `output_tree` stands for the
externally computed `GdTree::from_ts_tree` of the parsed final `content`.
The result of `finish` is returned directly by
`format_gdscript_with_config` (formatter.rs line 36). -/
def finish (safe : Bool) (input_tree output_tree : GdTree) (content : Text) :
    Except String Text :=
  if safe then
    if GdTree.eq input_tree output_tree then Except.ok content
    else Except.error "Code structure has changed after formatting"
  else Except.ok content

/-- C3: with safe mode enabled, if the normalized input fingerprint is not
equivalent to the output tree's fingerprint, `finish` — and hence
`format_gdscript_with_config`, which returns its result unchanged — returns
the structure-changed error and no formatted text reaches the caller. -/
theorem safe_mode_mismatch_returns_error
    (input_tree output_tree : GdTree) (content : Text)
    (h : GdTree.eq input_tree output_tree = false) :
    finish true input_tree output_tree content =
        Except.error "Code structure has changed after formatting" ∧
      ∀ s : Text, finish true input_tree output_tree content ≠ Except.ok s := by
  rw [finish]
  simp [h]

/-- Witness for C3: a tree and a pruned copy (one child dropped) are not
equivalent, and safe mode fails the whole operation on them. -/
theorem safe_mode_mismatch_returns_error_witness :
    GdTree.eq (.node 1 none [.node 2 none []]) (.node 1 none []) = false ∧
    (finish true (.node 1 none [.node 2 none []]) (.node 1 none []) ['a'] =
        Except.error "Code structure has changed after formatting" ∧
      ∀ s : Text,
        finish true (.node 1 none [.node 2 none []]) (.node 1 none []) ['a'] ≠ Except.ok s) :=
  ⟨by simp [GdTree.eq, gdEqLoop, GdTree.children],
    safe_mode_mismatch_returns_error _ _ _
      (by simp [GdTree.eq, gdEqLoop, GdTree.children])⟩

/-- C9: whenever two fingerprints have identical shape and identical grammar
ids at every corresponding node — a condition that never inspects the text
recorded on leaf nodes — the `PartialEq` walk returns true, so safe mode
accepts any transformation that alters only leaf text. -/
theorem leaf_text_change_is_not_structure_change
    (t1 t2 : GdTree) (h : specEquiv t1 t2 = true) :
    GdTree.eq t1 t2 = true ∧ ∀ c : Text, finish true t1 t2 c = Except.ok c := by
  have hn : nonRootEquiv t1 t2 = true := by
    rw [specEquiv, Bool.and_eq_true] at h
    exact h.2
  have he : GdTree.eq t1 t2 = true := (gdtree_eq_eq_nonRootEquiv t1 t2).mpr hn
  refine ⟨he, fun c => ?_⟩
  rw [finish]
  simp [he]

/-- Witness for C9: two trees identical in shape and grammar ids whose leaf
texts differ (an identifier respelled) are accepted by safe mode. -/
theorem leaf_text_change_is_not_structure_change_witness :
    specEquiv (.node 5 none [.node 7 (some ['a']) []])
        (.node 5 none [.node 7 (some ['b', 'c']) []]) = true ∧
    (GdTree.eq (.node 5 none [.node 7 (some ['a']) []])
        (.node 5 none [.node 7 (some ['b', 'c']) []]) = true ∧
      ∀ c : Text,
        finish true (.node 5 none [.node 7 (some ['a']) []])
          (.node 5 none [.node 7 (some ['b', 'c']) []]) c = Except.ok c) :=
  ⟨by simp [specEquiv, GdTree.grammar_id, nonRootEquiv, nonRootEquivList],
    leaf_text_change_is_not_structure_change _ _
      (by simp [specEquiv, GdTree.grammar_id, nonRootEquiv, nonRootEquivList])⟩

/-- Outcome of the reordering step: the (possibly replaced) buffer plus the
warning printed to stderr, if any. -/
structure ReorderOutcome where
  content : Text
  warning : Option String
deriving Repr

/-- Embedding of `Formatter::reorder` (formatter.rs lines 105-123): when
reordering is disabled the step does nothing; otherwise the external
collaborator's result either replaces the content, or — on error — leaves
the content untouched and emits the warning of lines 117-120. -/
def reorder (reorder_code : Bool) (content : Text) (result : Except String Text) :
    ReorderOutcome :=
  if !reorder_code then ⟨content, none⟩
  else
    match result with
    | .ok r => ⟨r, none⟩
    | .error e =>
      ⟨content,
        some ("Warning: Code reordering failed: " ++ e ++
          ". Returning formatted code without reordering.")⟩

/-- C7: when reordering is enabled and the reorder collaborator fails, the
pipeline keeps the formatted but un-reordered text, emits the user-visible
warning, and the overall operation's outcome (the subsequent `finish`) is
exactly what it would have been had reordering not failed — a reorder error
never fails the whole formatting operation. -/
theorem reorder_failure_degrades_gracefully
    (content : Text) (e : String) (safe : Bool) (it ot : GdTree) :
    (reorder true content (Except.error e)).content = content ∧
    (reorder true content (Except.error e)).warning =
      some ("Warning: Code reordering failed: " ++ e ++
        ". Returning formatted code without reordering.") ∧
    finish safe it ot (reorder true content (Except.error e)).content =
      finish safe it ot content :=
  ⟨rfl, rfl, rfl⟩

/-- Insertion of `t` before byte `p` of `c` (Rust `String::insert`,
repeated for each char of `t`). -/
def insertAt (c : Text) (p : Nat) (t : Text) : Text :=
  c.take p ++ t ++ c.drop p

theorem insertAt_length (c : Text) (p : Nat) (t : Text) :
    (insertAt c p t).length = c.length + t.length := by
  simp [insertAt]
  omega

/-- The backward seek of formatter.rs lines 405-410: starting from the start
byte of the node to insert before, walk backward while the current byte is
not a newline, stopping at byte 0 (the loop guard tests `byte_idx > 0`
first, so byte 0 itself is never examined). -/
def seekLineStart (content : Text) : Nat → Nat
  | 0 => 0
  | i + 1 => if content.getD (i + 1) ' ' = '\n' then i + 1 else seekLineStart content i

/-- The short-circuit structure of the guard at formatter.rs lines 432-433:
`content[byte_idx - 1]` is evaluated if and only if `content[byte_idx]` is a
newline; the guard never tests `byte_idx > 0`. -/
def readsPrecedingByte (content : Text) (byte_idx : Nat) : Bool :=
  content.getD byte_idx ' ' == '\n'

/-- The full guard of formatter.rs lines 432-433: the byte at the insertion
point and the byte before it are both newlines — an existing blank line.
The `byte_idx - 1` access is modelled totally (`Nat` subtraction plus
`getD`); at `byte_idx = 0` the Rust expression underflows instead. -/
def blankLineAlready (content : Text) (byte_idx : Nat) : Bool :=
  content.getD byte_idx ' ' == '\n' && content.getD (byte_idx - 1) ' ' == '\n'

/-- One iteration of the insertion loop of formatter.rs lines 428-454,
restricted to its effect on the buffer: the first `content.insert` runs only
when there is not already a blank line, the second runs unconditionally (the
`InputEdit` bookkeeping of lines 446-453 mirrors the same bytes into the
tree and has no effect on the buffer). -/
def insertNewlinesAt (content : Text) (byte_idx : Nat) : Text :=
  let content1 :=
    if !blankLineAlready content byte_idx then insertAt content byte_idx ['\n'] else content
  insertAt content1 byte_idx ['\n']

/-- Descending insertion sort on insertion points, modelling
`new_lines_at.sort_by(|a, b| b.cmp(a))` (formatter.rs line 426). -/
def insertDescN (x : Nat) : List Nat → List Nat
  | [] => [x]
  | y :: r => if y ≤ x then x :: y :: r else y :: insertDescN x r

def sortDescN : List Nat → List Nat
  | [] => []
  | x :: r => insertDescN x (sortDescN r)

/-- Embedding of `Formatter::handle_two_blank_line` (formatter.rs lines
329-456), parameterized by the start bytes of the nodes the two tree-sitter
queries produce as `insert_before` (query matching is external): each start
byte is walked back to its line start, the collected points are sorted in
descending byte order, and the newline insertions are applied in that
order. -/
def handle_two_blank_line (content : Text) (starts : List Nat) : Text :=
  (sortDescN (starts.map (seekLineStart content))).foldl insertNewlinesAt content

theorem insertNewlinesAt_length (c : Text) (b : Nat) :
    (insertNewlinesAt c b).length =
      c.length + (if blankLineAlready c b then 1 else 2) := by
  unfold insertNewlinesAt
  by_cases h : blankLineAlready c b <;>
    simp [h, insertAt_length]

theorem foldl_insertNewlinesAt_length_le (l : List Nat) :
    ∀ c : Text, c.length ≤ (l.foldl insertNewlinesAt c).length := by
  induction l with
  | nil => intro c; simp
  | cons b r ih =>
    intro c
    have h1 : c.length ≤ (insertNewlinesAt c b).length := by
      rw [insertNewlinesAt_length]
      omega
    calc c.length ≤ (insertNewlinesAt c b).length := h1
    _ ≤ _ := ih (insertNewlinesAt c b)

theorem insertDescN_length (x : Nat) (l : List Nat) :
    (insertDescN x l).length = l.length + 1 := by
  induction l with
  | nil => rfl
  | cons y r ih =>
    by_cases h : y ≤ x <;> simp [insertDescN, h, ih]

theorem sortDescN_length (l : List Nat) : (sortDescN l).length = l.length := by
  induction l with
  | nil => rfl
  | cons x r ih => simp [sortDescN, insertDescN_length, ih]

/-- C2 counterexample: on the spec's own concrete scenario buffer with two
blank lines already between the two function definitions (insertion point:
the seek from byte 18, the start of `func b`), the pass inserts another
newline — three blank lines — instead of being a no-op. -/
theorem spacing_pass_not_noop_on_two_blank_lines :
    handle_two_blank_line ("func a():\n\tpass\n\n\nfunc b():\n\tpass\n".toList) [18] =
      "func a():\n\tpass\n\n\n\nfunc b():\n\tpass\n".toList ∧
    handle_two_blank_line ("func a():\n\tpass\n\n\nfunc b():\n\tpass\n".toList) [18] ≠
      "func a():\n\tpass\n\n\nfunc b():\n\tpass\n".toList := by
  constructor
  · decide
  · decide

/-- C2 (amended): at each insertion point the pass checks only whether a
blank line is already present there (the byte at the point and the byte
before it are both newlines); if so it skips the *second* newline insertion
and still inserts exactly one newline, otherwise it inserts two.  It never
skips insertion entirely — the buffer strictly grows at every insertion
point — so a declaration already followed by exactly two blank lines gains a
third; the Structural Spacing Pass alone is not a no-op on its own output
(the tested full-pipeline idempotence relies on the upstream pretty-printer
collapsing blank lines before this pass runs). -/
theorem spacing_pass_always_inserts
    (c : Text) (b : Nat) (hb : b ≤ c.length) (starts : List Nat) (hs : starts ≠ []) :
    insertNewlinesAt c b =
      c.take b ++ (if blankLineAlready c b then ['\n'] else ['\n', '\n']) ++ c.drop b ∧
    (insertNewlinesAt c b).length = c.length + (if blankLineAlready c b then 1 else 2) ∧
    c.length < (handle_two_blank_line c starts).length := by
  refine ⟨?_, insertNewlinesAt_length c b, ?_⟩
  · have hlen : b ≤ (c.take b).length := by simp; omega
    have h1 : (insertAt c b ['\n']).take b = c.take b := by
      rw [insertAt, List.append_assoc, List.take_append_of_le_length hlen]
      simp [List.take_take]
    have h2 : (insertAt c b ['\n']).drop b = ['\n'] ++ c.drop b := by
      rw [insertAt, List.append_assoc, List.drop_append_of_le_length hlen]
      simp [List.drop_take]
    unfold insertNewlinesAt
    by_cases h : blankLineAlready c b
    · rw [if_pos h]
      simp [h, insertAt]
    · rw [if_neg h]
      simp only [h, Bool.not_false, if_true]
      calc insertAt (insertAt c b ['\n']) b ['\n']
          = (insertAt c b ['\n']).take b ++ ['\n'] ++ (insertAt c b ['\n']).drop b := rfl
        _ = c.take b ++ ['\n'] ++ (['\n'] ++ c.drop b) := by rw [h1, h2]
        _ = c.take b ++ ['\n', '\n'] ++ c.drop b := by simp
  · unfold handle_two_blank_line
    have hne : sortDescN (starts.map (seekLineStart c)) ≠ [] := by
      intro hcon
      have hlc := sortDescN_length (starts.map (seekLineStart c))
      rw [hcon] at hlc
      simp only [List.length_nil, List.length_map] at hlc
      exact hs (List.length_eq_zero.mp hlc.symm)
    cases hsd : sortDescN (starts.map (seekLineStart c)) with
    | nil => exact absurd hsd hne
    | cons p r =>
      simp only [List.foldl_cons]
      calc c.length < (insertNewlinesAt c p).length := by
            rw [insertNewlinesAt_length]
            by_cases h : blankLineAlready c p <;> simp [h]
      _ ≤ _ := foldl_insertNewlinesAt_length_le r _

/-- Witness for C2 (amended) at a concrete buffer with one insertion
point. -/
theorem spacing_pass_always_inserts_witness :
    ((1 : Nat) ≤ ("a\nb".toList : Text).length ∧ ([2] : List Nat) ≠ []) ∧
    (insertNewlinesAt ("a\nb".toList) 1 =
      ("a\nb".toList : Text).take 1 ++
        (if blankLineAlready ("a\nb".toList) 1 then ['\n'] else ['\n', '\n']) ++
        ("a\nb".toList : Text).drop 1 ∧
    (insertNewlinesAt ("a\nb".toList) 1).length =
      ("a\nb".toList : Text).length + (if blankLineAlready ("a\nb".toList) 1 then 1 else 2) ∧
    ("a\nb".toList : Text).length < (handle_two_blank_line ("a\nb".toList) [2]).length) :=
  ⟨⟨by decide, by decide⟩,
    spacing_pass_always_inserts ("a\nb".toList) 1 (by decide) [2] (by decide)⟩

/-- C10 counterexample: seeking back from start byte 2 of the buffer
`"\nab"` stops at byte 0 (bytes 2 and 1 are not newlines; byte 0 is never
examined by the seek), and since byte 0 *is* a newline, the guard of lines
432-433 then evaluates the preceding byte at index `byte_idx - 1` even
though `byte_idx = 0` — in the Rust code, an out-of-bounds (underflowing)
index. -/
theorem preceding_byte_read_at_index_zero :
    seekLineStart ['\n', 'a', 'b'] 2 = 0 ∧
    readsPrecedingByte ['\n', 'a', 'b'] 0 = true := by
  constructor
  · decide
  · decide

theorem seekLineStart_le (c : Text) (s : Nat) : seekLineStart c s ≤ s := by
  induction s with
  | zero => exact Nat.le_refl 0
  | succ i ih =>
    unfold seekLineStart
    by_cases h : c.getD (i + 1) ' ' = '\n'
    · rw [if_pos h]
    · rw [if_neg h]
      exact Nat.le_succ_of_le ih

theorem seekLineStart_stops (c : Text) (s : Nat) :
    seekLineStart c s = 0 ∨ c.getD (seekLineStart c s) ' ' = '\n' := by
  induction s with
  | zero => exact Or.inl rfl
  | succ i ih =>
    unfold seekLineStart
    by_cases h : c.getD (i + 1) ' ' = '\n'
    · rw [if_pos h]
      exact Or.inr h
    · rw [if_neg h]
      exact ih

/-- C10 (amended): the backward seek stops at byte 0 without going below it,
its result never exceeds the (in-bounds) start byte — so every index it
examines is in bounds — and it lands on byte 0 or on a newline; the byte
preceding the insertion point is read exactly when the byte at the point is
a newline, which guarantees `byte_idx > 0` only when the buffer does not
begin with a newline (with a leading newline the read can occur at
`byte_idx = 0`, where the Rust `byte_idx - 1` is out of bounds). -/
theorem spacing_pass_seek_bounds
    (c : Text) (s : Nat) (hs : s < c.length) :
    (seekLineStart c s ≤ s ∧ seekLineStart c s < c.length) ∧
    (seekLineStart c s = 0 ∨ c.getD (seekLineStart c s) ' ' = '\n') ∧
    (readsPrecedingByte c (seekLineStart c s) = true →
      c.getD 0 ' ' ≠ '\n' → 0 < seekLineStart c s) := by
  have hle := seekLineStart_le c s
  refine ⟨⟨hle, by omega⟩, seekLineStart_stops c s, ?_⟩
  intro hread h0
  rw [readsPrecedingByte, beq_iff_eq] at hread
  rcases Nat.eq_zero_or_pos (seekLineStart c s) with hz | hp
  · rw [hz] at hread
    exact absurd hread h0
  · exact hp

/-- Witness for C10 (amended) at a concrete buffer. -/
theorem spacing_pass_seek_bounds_witness :
    (4 : Nat) < ("ab\ncd".toList : Text).length ∧
    ((seekLineStart ("ab\ncd".toList) 4 ≤ 4 ∧
        seekLineStart ("ab\ncd".toList) 4 < ("ab\ncd".toList : Text).length) ∧
      (seekLineStart ("ab\ncd".toList) 4 = 0 ∨
        ("ab\ncd".toList : Text).getD (seekLineStart ("ab\ncd".toList) 4) ' ' = '\n') ∧
      (readsPrecedingByte ("ab\ncd".toList) (seekLineStart ("ab\ncd".toList) 4) = true →
        ("ab\ncd".toList : Text).getD 0 ' ' ≠ '\n' →
        0 < seekLineStart ("ab\ncd".toList) 4)) :=
  ⟨by decide, spacing_pass_seek_bounds ("ab\ncd".toList) 4 (by decide)⟩

/-- State of one `Formatter` (formatter.rs lines 39-45) reduced to what the
consistency invariant speaks about: the mutable buffer (`self.content`) and
the text that `self.tree` currently describes — the text it was last parsed
from or incrementally edited to match. -/
structure FmtState where
  content : Text
  treeText : Text
deriving DecidableEq, Repr

/-- The buffer/tree consistency invariant of spec §3: `SourceBuffer` and
`SyntaxTree` describe the same text. -/
def inSync (s : FmtState) : Prop :=
  s.content = s.treeText

/-- `Formatter::new` (lines 47-65): the tree is parsed from the input
content. -/
def fmtNew (input : Text) : FmtState :=
  ⟨input, input⟩

/-- `Formatter::preprocess` (lines 125-131): does nothing. -/
def preprocess (s : FmtState) : FmtState :=
  s

/-- `Formatter::format` (lines 67-103): the buffer is replaced with the
external pretty-printer's output (`f` abstracts the Topiary call), while
`self.tree` is not reparsed or edited — it still describes the
pre-formatting text. -/
def format (f : Text → Text) (s : FmtState) : FmtState :=
  ⟨f s.content, s.treeText⟩

/-- Buffer/tree effect of one regex postprocessing pass
(`regex_replace_all_outside_strings`, lines 263-322): with zero regex
matches the function returns early (lines 264-267) leaving buffer and tree
untouched; otherwise the recorded edits are applied to the tree and the tree
is immediately reparsed from the new buffer (lines 318-321). -/
def regexPass (ms : List RMatch) (inStr : Nat → Bool) (s : FmtState) : FmtState :=
  if ms.isEmpty then s
  else
    let out := (regex_replace_all_outside_strings s.content ms inStr).1
    ⟨out, out⟩

/-- `Formatter::postprocess_tree_sitter` (lines 251-257): a full reparse of
the current buffer (line 254), then `handle_two_blank_line`, each of whose
insertions is mirrored into the tree by an `InputEdit` (lines 446-453). -/
def postprocess_tree_sitter (starts : List Nat) (s : FmtState) : FmtState :=
  let out := handle_two_blank_line s.content starts
  ⟨out, out⟩

/-- The reparse at the start of safe-mode verification
(`Formatter::finish`, line 149): the tree is freshly parsed from the final
content before the fingerprints are compared. -/
def finishReparse (safe : Bool) (s : FmtState) : FmtState :=
  if safe then ⟨s.content, s.content⟩ else s

/-- C1 counterexample: immediately after the external pretty-printer call
the buffer holds the formatter's output while the tree still describes the
pre-formatting text, so at that stage boundary `SourceBuffer` and
`SyntaxTree` do *not* describe the same text (here: a pretty-printer that
rewrites `"a"` to `"b"`). -/
theorem tree_stale_after_pretty_printer :
    ¬ inSync (format (fun _ => ['b']) (preprocess (fmtNew ['a']))) := by
  simp [inSync, format, preprocess, fmtNew]

/-- C1 (amended): the buffer and the tree describe the same text after
construction, after (the no-op) preprocessing, at the end of every regex
postprocessing pass that found at least one match, after the tree-sitter
postprocessing pass, and at verification time (safe mode reparses before
comparing fingerprints).  Immediately after the external pretty-printer
call, however, the tree still describes the pre-formatting text — the
reparse is deferred to the first subsequent pass — and a regex pass that
finds no matches leaves buffer and tree exactly as they were. -/
theorem buffer_tree_sync_at_stage_boundaries
    (input : Text) (f : Text → Text) (ms : List RMatch) (inStr : Nat → Bool)
    (starts : List Nat) (s : FmtState) :
    inSync (fmtNew input) ∧
    inSync (preprocess (fmtNew input)) ∧
    (format f s).treeText = s.treeText ∧
    (format f s).content = f s.content ∧
    (ms ≠ [] → inSync (regexPass ms inStr s)) ∧
    (ms = [] → regexPass ms inStr s = s) ∧
    inSync (postprocess_tree_sitter starts s) ∧
    inSync (finishReparse true s) := by
  refine ⟨rfl, rfl, rfl, rfl, ?_, ?_, rfl, rfl⟩
  · intro h
    cases ms with
    | nil => exact absurd rfl h
    | cons m rest => simp [regexPass, inSync]
  · intro h
    subst h
    rfl

/-- Witness for C1 (amended) at concrete stage inputs. -/
theorem buffer_tree_sync_at_stage_boundaries_witness :
    (([⟨0, 1, ['x']⟩] : List RMatch) ≠ [] ∧ ([] : List RMatch) = []) ∧
    (inSync (fmtNew ['a']) ∧
    inSync (preprocess (fmtNew ['a'])) ∧
    (format (fun _ => ['b']) ⟨['a'], ['a']⟩).treeText = (⟨['a'], ['a']⟩ : FmtState).treeText ∧
    (format (fun _ => ['b']) ⟨['a'], ['a']⟩).content = (fun _ => ['b']) (['a'] : Text) ∧
    (([⟨0, 1, ['x']⟩] : List RMatch) ≠ [] →
      inSync (regexPass [⟨0, 1, ['x']⟩] (fun _ => false) ⟨['a'], ['a']⟩)) ∧
    (([⟨0, 1, ['x']⟩] : List RMatch) = [] →
      regexPass [⟨0, 1, ['x']⟩] (fun _ => false) ⟨['a'], ['a']⟩ = ⟨['a'], ['a']⟩) ∧
    inSync (postprocess_tree_sitter [0] ⟨['a'], ['a']⟩) ∧
    inSync (finishReparse true ⟨['a'], ['a']⟩)) :=
  ⟨⟨by decide, rfl⟩,
    buffer_tree_sync_at_stage_boundaries ['a'] (fun _ => ['b']) [⟨0, 1, ['x']⟩]
      (fun _ => false) [0] ⟨['a'], ['a']⟩⟩

/-- Total length of the already-applied insertions. -/
def sumLens : List (Nat × Nat) → Nat
  | [] => 0
  | q :: r => q.2 + sumLens r

/-- Offset compensation per the spec's proviso ("each point's own offset is
recomputed relative to the unedited buffer"): how many characters the
already-applied insertions — recorded as (original offset, inserted length)
pairs — contributed at strictly smaller original offsets than `p`. -/
def shiftOf (applied : List (Nat × Nat)) (p : Nat) : Nat :=
  match applied with
  | [] => 0
  | q :: r => (if q.1 < p then q.2 else 0) + shiftOf r p

theorem shiftOf_le_sumLens (applied : List (Nat × Nat)) (p : Nat) :
    shiftOf applied p ≤ sumLens applied := by
  induction applied with
  | nil => exact Nat.le_refl 0
  | cons q r ih =>
    simp only [shiftOf, sumLens]
    by_cases h : q.1 < p
    · rw [if_pos h]; omega
    · rw [if_neg h]; omega

theorem shiftOf_mono (applied : List (Nat × Nat)) {p q : Nat} (h : p ≤ q) :
    shiftOf applied p ≤ shiftOf applied q := by
  induction applied with
  | nil => exact Nat.le_refl 0
  | cons a r ih =>
    simp only [shiftOf]
    by_cases hp : a.1 < p
    · rw [if_pos hp, if_pos (by omega)]; omega
    · rw [if_neg hp]
      by_cases hq : a.1 < q
      · rw [if_pos hq]; omega
      · rw [if_neg hq]; omega

theorem shiftOf_eq_zero {applied : List (Nat × Nat)} {p : Nat}
    (h : ∀ a ∈ applied, ¬a.1 < p) : shiftOf applied p = 0 := by
  induction applied with
  | nil => rfl
  | cons a r ih =>
    simp only [shiftOf]
    rw [if_neg (h a (List.mem_cons_self a r))]
    simp [ih fun b hb => h b (List.mem_cons_of_mem a hb)]

theorem shiftOf_swap (a b : Nat × Nat) (l : List (Nat × Nat)) (p : Nat) :
    shiftOf (a :: b :: l) p = shiftOf (b :: a :: l) p := by
  simp only [shiftOf]
  omega

theorem insertAt_zero (c t : Text) : insertAt c 0 t = t ++ c := by
  simp [insertAt]

theorem insertAt_append_left {A : Text} (B : Text) {p : Nat} (t : Text) (h : p ≤ A.length) :
    insertAt (A ++ B) p t = insertAt A p t ++ B := by
  rw [insertAt, insertAt, List.take_append_of_le_length h, List.drop_append_of_le_length h]
  simp [List.append_assoc]

theorem insertAt_append_right {A : Text} (B : Text) {p : Nat} (t : Text) (h : A.length ≤ p) :
    insertAt (A ++ B) p t = A ++ insertAt B (p - A.length) t := by
  rw [insertAt, insertAt]
  conv_lhs => rw [show p = A.length + (p - A.length) by omega]
  rw [List.take_append, List.drop_append]
  simp [List.append_assoc]

/-- Two insertions commute when the later one is applied first: inserting `t`
at `p` and then `s` at the shifted offset `q + t.length` equals inserting `s`
at `q` first and then `t` at the unshifted `p` (`p < q ≤ c.length`). -/
theorem insertAt_comm (c : Text) (p q : Nat) (t s : Text) (hpq : p < q) (hq : q ≤ c.length) :
    insertAt (insertAt c p t) (q + t.length) s = insertAt (insertAt c q s) p t := by
  have hsplit : c = c.take q ++ c.drop q := (List.take_append_drop q c).symm
  have hlq : (c.take q).length = q := by
    rw [List.length_take]
    omega
  have hL1 : insertAt c p t = insertAt (c.take q) p t ++ c.drop q := by
    conv_lhs => rw [hsplit]
    exact insertAt_append_left (c.drop q) t (by omega)
  have hlins : (insertAt (c.take q) p t).length = q + t.length := by
    rw [insertAt_length, hlq]
  have hL2 : insertAt (insertAt c p t) (q + t.length) s =
      insertAt (c.take q) p t ++ (s ++ c.drop q) := by
    rw [hL1, insertAt_append_right (c.drop q) s (le_of_eq hlins)]
    rw [hlins]
    simp [insertAt_zero]
  have hR1 : insertAt c q s = (c.take q ++ s) ++ c.drop q := by
    conv_lhs => rw [hsplit]
    rw [insertAt_append_left (c.drop q) s (le_of_eq hlq.symm)]
    rw [insertAt, List.take_of_length_le (le_of_eq hlq), List.drop_eq_nil_of_le (le_of_eq hlq)]
    simp
  have hR2 : insertAt (insertAt c q s) p t = insertAt (c.take q ++ s) p t ++ c.drop q := by
    rw [hR1]
    exact insertAt_append_left (c.drop q) t (by rw [List.length_append, hlq]; omega)
  have hmid : insertAt (c.take q ++ s) p t = insertAt (c.take q) p t ++ s :=
    insertAt_append_left s t (by rw [hlq]; omega)
  rw [hL2, hR2, hmid, List.append_assoc]

/-- Spec-side application of a list of insertion points in an arbitrary
order: each point is applied at its original offset compensated by the
already-applied insertions at strictly smaller original offsets, so the
offset stays "relative to the unedited buffer". -/
def applySeqAux : Text → List (Nat × Nat) → List (Nat × Text) → Text
  | c, _, [] => c
  | c, applied, q :: rest =>
    applySeqAux (insertAt c (q.1 + shiftOf applied q.1) q.2) ((q.1, q.2.length) :: applied) rest

def applySeq (c : Text) (l : List (Nat × Text)) : Text :=
  applySeqAux c [] l

theorem applySeqAux_congr (l : List (Nat × Text)) :
    ∀ (c : Text) (a1 a2 : List (Nat × Nat)),
      (∀ p, shiftOf a1 p = shiftOf a2 p) →
      applySeqAux c a1 l = applySeqAux c a2 l := by
  induction l with
  | nil => intros; rfl
  | cons q rest ih =>
    intro c a1 a2 hsh
    simp only [applySeqAux]
    rw [hsh q.1]
    refine ih _ _ _ ?_
    intro p
    simp only [shiftOf]
    rw [hsh p]

theorem swap_step (c : Text) (applied : List (Nat × Nat)) (n : Nat) (a b : Nat × Text)
    (hab : a.1 < b.1) (hbn : b.1 ≤ n) (hlen : c.length = n + sumLens applied) :
    insertAt (insertAt c (a.1 + shiftOf applied a.1) a.2)
        (b.1 + shiftOf ((a.1, a.2.length) :: applied) b.1) b.2 =
      insertAt (insertAt c (b.1 + shiftOf applied b.1) b.2)
        (a.1 + shiftOf ((b.1, b.2.length) :: applied) a.1) a.2 := by
  have hshb : shiftOf ((a.1, a.2.length) :: applied) b.1 = a.2.length + shiftOf applied b.1 := by
    simp only [shiftOf]
    rw [if_pos hab]
  have hsha : shiftOf ((b.1, b.2.length) :: applied) a.1 = shiftOf applied a.1 := by
    simp only [shiftOf]
    rw [if_neg (by omega)]
    omega
  rw [hshb, hsha]
  have hmono := shiftOf_mono applied (le_of_lt hab)
  have hle := shiftOf_le_sumLens applied b.1
  have hcomm := insertAt_comm c (a.1 + shiftOf applied a.1) (b.1 + shiftOf applied b.1)
    a.2 b.2 (by omega) (by omega)
  rw [show b.1 + (a.2.length + shiftOf applied b.1) =
      b.1 + shiftOf applied b.1 + a.2.length from by omega]
  exact hcomm

theorem applySeqAux_perm {l1 l2 : List (Nat × Text)} (hperm : l1.Perm l2) :
    ∀ (n : Nat) (c : Text) (applied : List (Nat × Nat)),
      (l1.map Prod.fst).Nodup → (∀ q ∈ l1, q.1 ≤ n) → c.length = n + sumLens applied →
      applySeqAux c applied l1 = applySeqAux c applied l2 := by
  induction hperm with
  | nil => intros; rfl
  | cons x h ih =>
    intro n c applied hnd hb hlen
    simp only [applySeqAux]
    have hnd2 := hnd
    simp only [List.map_cons, List.nodup_cons] at hnd2
    refine ih n _ _ hnd2.2 (fun q hq => hb q (List.mem_cons_of_mem x hq)) ?_
    rw [insertAt_length, hlen]
    simp only [sumLens]
    omega
  | swap x y l =>
    intro n c applied hnd hb hlen
    have hxy : y.1 ≠ x.1 := by
      simp only [List.map_cons, List.nodup_cons, List.mem_cons] at hnd
      exact fun hcon => hnd.1 (Or.inl hcon)
    simp only [applySeqAux]
    rcases lt_or_gt_of_ne hxy with hlt | hgt
    · rw [swap_step c applied n y x hlt (hb x (by simp)) hlen]
      exact applySeqAux_congr l _ _ _
        fun p => shiftOf_swap (x.1, x.2.length) (y.1, y.2.length) applied p
    · rw [swap_step c applied n x y hgt (hb y (by simp)) hlen]
      exact applySeqAux_congr l _ _ _
        fun p => shiftOf_swap (x.1, x.2.length) (y.1, y.2.length) applied p
  | trans h1 h2 ih1 ih2 =>
    intro n c applied hnd hb hlen
    rw [ih1 n c applied hnd hb hlen]
    refine ih2 n c applied (((h1.map Prod.fst).nodup_iff).mp hnd)
      (fun q hq => hb q (h1.mem_iff.mpr hq)) hlen

theorem applySeqAux_desc :
    ∀ (l : List (Nat × Text)) (c : Text) (applied : List (Nat × Nat)),
      List.Pairwise (fun a b => b.1 < a.1) l →
      (∀ x ∈ applied, ∀ q ∈ l, q.1 < x.1) →
      applySeqAux c applied l = l.foldl (fun acc q => insertAt acc q.1 q.2) c := by
  intro l
  induction l with
  | nil => intros; rfl
  | cons q rest ih =>
    intro c applied hpw hinv
    simp only [applySeqAux, List.foldl_cons]
    have hz : shiftOf applied q.1 = 0 :=
      shiftOf_eq_zero fun a ha => by
        have := hinv a ha q (List.mem_cons_self q rest)
        omega
    rw [hz, Nat.add_zero]
    refine ih _ _ (List.pairwise_cons.mp hpw).2 ?_
    intro x hx r hr
    rcases List.mem_cons.mp hx with rfl | hx
    · exact (List.pairwise_cons.mp hpw).1 r hr
    · exact hinv x hx r (List.mem_cons_of_mem q hr)

/-- Descending insertion sort on (byte offset, inserted text) pairs,
modelling `new_lines_at.sort_by(|a, b| b.cmp(a))` (formatter.rs line 426). -/
def insertDescP (x : Nat × Text) : List (Nat × Text) → List (Nat × Text)
  | [] => [x]
  | y :: r => if y.1 ≤ x.1 then x :: y :: r else y :: insertDescP x r

def sortDescP : List (Nat × Text) → List (Nat × Text)
  | [] => []
  | x :: r => insertDescP x (sortDescP r)

theorem insertDescP_perm (x : Nat × Text) (l : List (Nat × Text)) :
    (insertDescP x l).Perm (x :: l) := by
  induction l with
  | nil => exact List.Perm.refl _
  | cons y r ih =>
    simp only [insertDescP]
    by_cases h : y.1 ≤ x.1
    · rw [if_pos h]
    · rw [if_neg h]
      exact (List.Perm.cons y ih).trans (List.Perm.swap x y r)

theorem sortDescP_perm (l : List (Nat × Text)) : (sortDescP l).Perm l := by
  induction l with
  | nil => exact List.Perm.refl _
  | cons x r ih => exact (insertDescP_perm x (sortDescP r)).trans (List.Perm.cons x ih)

theorem insertDescP_pairwise (x : Nat × Text) (l : List (Nat × Text))
    (h : List.Pairwise (fun a b => b.1 ≤ a.1) l) :
    List.Pairwise (fun a b => b.1 ≤ a.1) (insertDescP x l) := by
  induction l with
  | nil => simp [insertDescP]
  | cons y r ih =>
    obtain ⟨hy, hr⟩ := List.pairwise_cons.mp h
    simp only [insertDescP]
    by_cases hc : y.1 ≤ x.1
    · rw [if_pos hc]
      refine List.pairwise_cons.mpr ⟨?_, h⟩
      intro z hz
      rcases List.mem_cons.mp hz with rfl | hz
      · exact hc
      · exact le_trans (hy z hz) hc
    · rw [if_neg hc]
      refine List.pairwise_cons.mpr ⟨?_, ih hr⟩
      intro z hz
      rcases List.mem_cons.mp ((insertDescP_perm x r).mem_iff.mp hz) with rfl | hz2
      · omega
      · exact hy z hz2

theorem sortDescP_pairwise (l : List (Nat × Text)) :
    List.Pairwise (fun a b => b.1 ≤ a.1) (sortDescP l) := by
  induction l with
  | nil => exact List.Pairwise.nil
  | cons x r ih => exact insertDescP_pairwise x (sortDescP r) ih

theorem pairwise_strict_of_nodup {l : List (Nat × Text)}
    (hpw : List.Pairwise (fun a b => b.1 ≤ a.1) l) (hnd : (l.map Prod.fst).Nodup) :
    List.Pairwise (fun a b => b.1 < a.1) l := by
  have hne : List.Pairwise (fun a b : Nat × Text => a.1 ≠ b.1) l := List.pairwise_map.mp hnd
  exact (hpw.and hne).imp fun h => by omega

/-- The application order of formatter.rs lines 424-454 abstracted over the
inserted text: the collected insertion points are sorted in descending byte
order and each insertion is then applied at its raw recorded offset into the
current buffer. -/
def applyDescNaive (c : Text) (ps : List (Nat × Text)) : Text :=
  (sortDescP ps).foldl (fun acc q => insertAt acc q.1 q.2) c

/-- C6: the insertion points collected from both spacing queries, sorted in
descending byte order and applied naively in that order (inserting at a
larger byte offset never shifts a smaller, not-yet-applied offset), produce
the same text as applying the same points in *any* order, provided each
point's offset is taken relative to the unedited buffer (compensated by the
already-inserted text at smaller original offsets). -/
theorem insertion_descending_order_stable
    (c : Text) (ps : List (Nat × Text))
    (hnd : (ps.map Prod.fst).Nodup) (hb : ∀ q ∈ ps, q.1 ≤ c.length)
    (ps' : List (Nat × Text)) (hperm : ps'.Perm ps) :
    applySeq c ps' = applyDescNaive c ps := by
  have hsp := sortDescP_perm ps
  have hperm2 : ps'.Perm (sortDescP ps) := hperm.trans hsp.symm
  have hnd' : (ps'.map Prod.fst).Nodup := ((hperm.map Prod.fst).nodup_iff).mpr hnd
  have hb' : ∀ q ∈ ps', q.1 ≤ c.length := fun q hq => hb q (hperm.mem_iff.mp hq)
  have h1 : applySeq c ps' = applySeq c (sortDescP ps) :=
    applySeqAux_perm hperm2 c.length c [] hnd' hb' (by simp [sumLens])
  rw [h1, applySeq, applyDescNaive]
  refine applySeqAux_desc _ _ _ ?_ ?_
  · exact pairwise_strict_of_nodup (sortDescP_pairwise ps)
      (((hsp.map Prod.fst).nodup_iff).mpr hnd)
  · intro x hx
    exact absurd hx (List.not_mem_nil x)

/-- Witness for C6: three independent spacing-insertion points applied in
ascending order with compensated offsets give the same text as the code's
descending-order application. -/
theorem insertion_descending_order_stable_witness :
    (([((4 : Nat), ['X']), (1, ['Y']), (2, ['Z', 'W'])].map Prod.fst).Nodup ∧
      (∀ q ∈ [((4 : Nat), ['X']), (1, ['Y']), (2, ['Z', 'W'])],
        q.1 ≤ ("abcdef".toList : Text).length) ∧
      List.Perm [((1 : Nat), ['Y']), (2, ['Z', 'W']), (4, ['X'])]
        [((4 : Nat), ['X']), (1, ['Y']), (2, ['Z', 'W'])]) ∧
    applySeq ("abcdef".toList) [((1 : Nat), ['Y']), (2, ['Z', 'W']), (4, ['X'])] =
      applyDescNaive ("abcdef".toList) [((4 : Nat), ['X']), (1, ['Y']), (2, ['Z', 'W'])] :=
  ⟨⟨by decide, by decide, by decide⟩,
    insertion_descending_order_stable ("abcdef".toList)
      [((4 : Nat), ['X']), (1, ['Y']), (2, ['Z', 'W'])] (by decide) (by decide)
      [((1 : Nat), ['Y']), (2, ['Z', 'W']), (4, ['X'])] (by decide)⟩

end GDScriptFormatter
